import Mathlib

/-!
Shallow embedding of src/klotski_solver.py, a Klotski sliding-block puzzle
solver (board model, legal-move generator, canonicalizer `baseform`, goal
predicate `accept`, and the breadth-first `search` loop).

Modelling conventions:

* Python tuples/lists of strings become Lean lists: a board is a
  `List (List String)`; piece identifiers stay strings; Python ints are `Int`.
* Python indexing `l[i]` maps negative indices `-len l ≤ i < 0` to the end of
  the list and raises IndexError otherwise.  `pyIdx`/`pyGet`/`pySet` model
  this; `none` stands for a raised IndexError.  A raised exception
  (IndexError or KeyError) surfaces as an explicit error value.
* Python set iteration order is unspecified (hash-based and independent of the
  construction history of the set).  The two places the source observes such
  an order, `holes.pop()` and the iteration over `set(old_loc) - set(new_loc)`
  inside `move_piece`, are modelled with sorted order (ascending string order
  and row-major cell order): one concrete deterministic rendering of CPython's
  construction-independent order.
* Python dict insertion/iteration order is never observed by the source (only
  key lookups), so dicts are modelled as lookup functions.
-/

/-- A cell position `(row, column)`; Python `(x, y)` with `board[x][y]`. -/
abbrev Cell := Nat × Nat

/-- A board: the Python tuple-of-tuples-of-strings `board`. -/
abbrev PyBoard := List (List String)

/-- A move `(piece, dx, dy)` as in the source. -/
abbrev Move := String × Int × Int

/-- Python string `<`: lexicographic comparison of the character lists
(characters compared by code point), as used by `sorted` on piece names. -/
def lexLt : List Char → List Char → Bool
  | [], [] => false
  | [], _ :: _ => true
  | _ :: _, [] => false
  | a :: as, b :: bs => if a < b then true else if b < a then false else lexLt as bs

/-- Python string `<=` (total order used by `sorted`). -/
def strLeB (s t : String) : Bool := !(lexLt t.data s.data)

/-- The sorting relation of `sortStr` (Python string `<=` as a relation). -/
def strLeR (s t : String) : Prop := strLeB s t = true

instance : DecidableRel strLeR := fun s t => by unfold strLeR; infer_instance

/-- Python `sorted` on a list of strings (stable sort, ascending). -/
def sortStr (l : List String) : List String := List.insertionSort strLeR l

/-- Row-major (lexicographic) order on cells: Python `sorted` on `(x, y)` tuples. -/
def cellLe (a b : Cell) : Prop := a.1 < b.1 ∨ (a.1 = b.1 ∧ a.2 ≤ b.2)

instance : DecidableRel cellLe := fun a b => by unfold cellLe; infer_instance

/-- Python `sorted` on a list of cells. -/
def sortCells (l : List Cell) : List Cell := List.insertionSort cellLe l

/-- Python list indexing: `pyIdx n i` is the physical index that `l[i]`
accesses in a list of length `n`, or `none` for an IndexError. -/
def pyIdx (n : Nat) (i : Int) : Option Nat :=
  if 0 ≤ i ∧ i < (n : Int) then some i.toNat
  else if -(n : Int) ≤ i ∧ i < 0 then some (i + n).toNat
  else none

/-- Python `l[i]` (read). -/
def pyGet {α : Type} (l : List α) (i : Int) : Option α :=
  (pyIdx l.length i).bind (fun k => l[k]?)

/-- Python `board[i][j]` (read). -/
def pyGet2 (board : PyBoard) (i j : Int) : Option String :=
  (pyGet board i).bind (fun row => pyGet row j)

/-- Python `l[i] = v`.  Out-of-range writes never occur in the modelled code
paths (every write follows a successful read of the same index), so they are
modelled as no-ops rather than threaded errors. -/
def pySet {α : Type} (l : List α) (i : Int) (v : α) : List α :=
  match pyIdx l.length i with
  | none => l
  | some k => l.set k v

/-- Python `board[i][j] = v`. -/
def pySet2 (board : PyBoard) (i j : Int) (v : String) : PyBoard :=
  match pyIdx board.length i with
  | none => board
  | some k => board.set k (pySet (board.getD k []) j v)

/-- Write at an in-range (natural) cell: `board[x][y] = v` for `0 ≤ x, y`. -/
def setCellNat (board : PyBoard) (c : Cell) (v : String) : PyBoard :=
  board.set c.1 ((board.getD c.1 []).set c.2 v)

/-- Occupant of a cell, `none` if the cell is outside the board. -/
def cellOf (board : PyBoard) (c : Cell) : Option String :=
  (board[c.1]?).bind (fun row => row[c.2]?)

/-- `len(board[0])` — the column count the source uses for every row. -/
def boardWidth (board : PyBoard) : Nat := (board.headD []).length

/-- `piece_locations(board)[piece]` (source lines 100-105): the row-major list
of cells occupied by `piece`.  The source's dict is only ever used through
key lookups, so it is modelled as this lookup function; a missing key
(KeyError) corresponds to the empty list. -/
def piece_locations (board : PyBoard) (piece : String) : List Cell :=
  (List.range board.length).flatMap (fun x =>
    ((List.range (boardWidth board)).filter
      (fun y => cellOf board (x, y) = some piece)).map (fun y => (x, y)))

/-- Result of `move_piece`: `ok` a new board, `noMove` for Python `None`
("no move"), `err` for a raised IndexError/KeyError. -/
inductive MoveRes where
  | err : MoveRes
  | noMove : MoveRes
  | ok : PyBoard → MoveRes
deriving DecidableEq, Repr

/-- First failure of the scan loop in `move_piece`: an out-of-range read
(IndexError) or a displaced cell occupied by a blocking piece. -/
inductive ScanFail where
  | oob : ScanFail
  | blocked : ScanFail
deriving DecidableEq

/-- The read-and-check part of the loop in `move_piece` (source lines 112-116):
for each `(x, y)` of `old_loc` read `board[x+dx][y+dy]`; fail if the read
raises or the occupant is not `_1`, `_2` or `piece`; on success return the
list of displaced occupants in loop order. -/
def scanMove (board : PyBoard) (piece : String) (dx dy : Int) :
    List Cell → Except ScanFail (List String)
  | [] => Except.ok []
  | c :: rest =>
    match pyGet2 board ((c.1 : Int) + dx) ((c.2 : Int) + dy) with
    | none => Except.error ScanFail.oob
    | some v =>
      if v = "_1" ∨ v = "_2" ∨ v = piece then
        (scanMove board piece dx dy rest).map (fun ds => v :: ds)
      else Except.error ScanFail.blocked

/-- The write part of the loop in `move_piece` (line 116):
`new_board[x+dx][y+dy] = board[x][y]` for each `(x, y)` of `old_loc`.  Since
`old_loc` lists exactly the cells holding `piece`, the written value is
`piece`.  Reads all come from the immutable `board`, so performing the writes
after the whole scan is equivalent to the source's interleaved loop. -/
def writePhase (board : PyBoard) (piece : String) (dx dy : Int)
    (old : List Cell) : PyBoard :=
  old.foldl (fun nb c => pySet2 nb ((c.1 : Int) + dx) ((c.2 : Int) + dy) piece) board

/-- `holes = displaced - set([piece])` (line 117), iterated in the model's
sorted set order. -/
def holesOf (displaced : List String) (piece : String) : List String :=
  sortStr ((displaced.dedup).filter (fun v => v ≠ piece))

/-- The raw displaced positions `new_loc` of `move_piece` (line 118), as
Python ints (no wrapping: Python compares the raw tuples). -/
def newLocOf (dx dy : Int) (old : List Cell) : List (Int × Int) :=
  old.map (fun c => ((c.1 : Int) + dx, (c.2 : Int) + dy))

/-- `set(old_loc) - set(new_loc)` (line 119), iterated in the model's sorted
set order. -/
def vacatedOf (dx dy : Int) (old : List Cell) : List Cell :=
  sortCells (old.filter
    (fun c => ¬ (((c.1 : Int), (c.2 : Int)) ∈ newLocOf dx dy old)))

/-- The final loop of `move_piece` (lines 119-120): assign a popped hole to
each vacated cell; popping an empty set raises KeyError (`err`). -/
def holeFill : PyBoard → List Cell → List String → MoveRes
  | nb, [], _ => MoveRes.ok nb
  | _, _ :: _, [] => MoveRes.err
  | nb, c :: cs, h :: hs => holeFill (setCellNat nb c h) cs hs

/-- `move_piece(board, (piece, dx, dy))` (source lines 108-121).  Returns
`err` for a raised exception (IndexError from an out-of-range read; KeyError
from `piece_locations(board)[piece]` with an absent piece or from popping an
empty hole set), `noMove` for Python `None`, and `ok new_board` on success. -/
def move_piece (board : PyBoard) (m : Move) : MoveRes :=
  let piece := m.1
  let dx := m.2.1
  let dy := m.2.2
  let old := piece_locations board piece
  if old.isEmpty then MoveRes.err
  else
    match scanMove board piece dx dy old with
    | Except.error ScanFail.oob => MoveRes.err
    | Except.error ScanFail.blocked => MoveRes.noMove
    | Except.ok displaced =>
      holeFill (writePhase board piece dx dy old) (vacatedOf dx dy old)
        (holesOf displaced piece)

/-- Sequential writes of values at (in-range, natural) cells. -/
def writePairs (b : PyBoard) : List (Cell × String) → PyBoard
  | [] => b
  | p :: ps => writePairs (setCellNat b p.1 p.2) ps

/-- The occupant of a cell, with a junk default for off-board cells. -/
def contentOf (b : PyBoard) (c : Cell) : String := (cellOf b c).getD ""

/-- The physical cell touched by the Python access `board[x+dx][y+dy]` for
`(x, y) = c` (meaningful when the access is in Python range). -/
def wrapTarget (board : PyBoard) (dx dy : Int) (c : Cell) : Cell :=
  let r := (pyIdx board.length ((c.1 : Int) + dx)).getD 0
  (r, (pyIdx ((board.getD r []).length) ((c.2 : Int) + dy)).getD 0)

/-- All cell positions of a board, row-major. -/
def allCells (b : PyBoard) : List Cell :=
  (List.range b.length).flatMap
    (fun i => (List.range ((b.getD i []).length)).map (fun j => (i, j)))

/-- The four directions tried by `possible_moves` (line 127), in source order. -/
def dirList : List (Int × Int) := [(1, 0), (-1, 0), (0, 1), (0, -1)]

/-- One entry produced by the `possible_moves` generator: a yielded
`(nboard, nmove)` pair, or a raised exception at that point of the lazy
iteration. -/
inductive Gen where
  | child : PyBoard → Move → Gen
  | genErr : Gen
deriving DecidableEq

/-- One candidate of `possible_moves` (lines 128-132): bounds-check the hole
neighbour `(hx+dx, hy+dy)`, read the piece there, and attempt
`move_piece(board, (piece, -dx, -dy))`; `None` results are skipped
(`if nboard:`), errors become `genErr` entries. -/
def genAt (board : PyBoard) (h : Cell) (d : Int × Int) : Option Gen :=
  if 0 ≤ (h.1 : Int) + d.1 ∧ (h.1 : Int) + d.1 < (board.length : Int) ∧
     0 ≤ (h.2 : Int) + d.2 ∧ (h.2 : Int) + d.2 < (boardWidth board : Int) then
    match cellOf board (((h.1 : Int) + d.1).toNat, ((h.2 : Int) + d.2).toNat) with
    | none => some Gen.genErr
    | some piece =>
      match move_piece board (piece, -d.1, -d.2) with
      | MoveRes.ok nb => some (Gen.child nb (piece, -d.1, -d.2))
      | MoveRes.noMove => none
      | MoveRes.err => some Gen.genErr
  else none

/-- `possible_moves(board)` (source lines 124-133) as the list of generator
events in yield order: first the hole `_1`, then `_2`, each over `dirList`.
`none` models the KeyError raised when a hole identifier is absent. -/
def possible_moves (board : PyBoard) : Option (List Gen) :=
  match (piece_locations board "_1").head?, (piece_locations board "_2").head? with
  | some h1, some h2 =>
    some ([h1, h2].flatMap (fun h => dirList.filterMap (fun d => genAt board h d)))
  | _, _ => none

/-- `uniq_ordered` (source lines 137-139): first occurrences, in order. -/
def uniqAux : List String → List String → List String
  | _, [] => []
  | acc, x :: xs => if x ∈ acc then uniqAux acc xs else x :: uniqAux (x :: acc) xs

/-- `uniq_ordered(seq)`. -/
def uniqOrdered (l : List String) : List String := uniqAux [] l

/-- `piece[0]` — the type tag of a piece identifier (first character; the
source raises on an empty identifier, which never occurs on a board). -/
def tagOf (s : String) : List Char := s.data.take 1

/-- `pgroups[piece[0]]` (lines 142-143): the pieces of one type tag, in
first-occurrence order. -/
def pgroup (pieces : List String) (t : List Char) : List String :=
  pieces.filter (fun p => tagOf p = t)

/-- The relabelling map `pmap` of `baseform` (line 144): the i-th
first-occurring piece of a type group maps to the i-th piece of the sorted
group.  The fallback value is never reached for pieces of the board. -/
def pmap (pieces : List String) (s : String) : String :=
  let g := pgroup pieces (tagOf s)
  ((sortStr g)[g.indexOf s]?).getD s

/-- `baseform(board)` (source lines 136-145). -/
def baseform (board : PyBoard) : PyBoard :=
  let pieces := uniqOrdered board.flatten
  board.map (fun row => row.map (pmap pieces))

/-- `accept(board)` (source lines 148-149):
`board[1][3] == board[1][4] == board[2][3] == board[2][4] == 'r'` with
Python's chained comparison (left to right, short-circuiting, so later
subscripts are only evaluated while the chain is still true); `none` models
a raised IndexError. -/
def accept (board : PyBoard) : Option Bool :=
  match pyGet2 board 1 3 with
  | none => none
  | some a =>
    match pyGet2 board 1 4 with
    | none => none
    | some b =>
      if a ≠ b then some false
      else
        match pyGet2 board 2 3 with
        | none => none
        | some c =>
          if b ≠ c then some false
          else
            match pyGet2 board 2 4 with
            | none => none
            | some d =>
              if c ≠ d then some false
              else some (d = "r")

/-- A `(kboard, kmoves)` work-queue node of `search`. -/
abbrev Node := PyBoard × List Move

/-- The doubled move `tuple([nmove[0], 2*nmove[1], 2*nmove[2]])` (line 172). -/
def doubleMove (m : Move) : Move := (m.1, 2 * m.2.1, 2 * m.2.2)

/-- Result of processing the children of one popped node: a solution was
returned, the loop continues with updated `seen`/`worklist`, or an exception
escaped. -/
inductive StepRes where
  | sol : PyBoard → List Move → StepRes
  | next : List PyBoard → List Node → StepRes
  | bad : StepRes
deriving DecidableEq

/-- The body of `for nboard, nmove in possible_moves(kboard)` (source lines
164-175): skip seen baseforms, return on an accepted board, otherwise record
the baseform and enqueue — at the front with a doubled last move if
`kmoves and kmoves[-1] == nmove`, else at the back. -/
def processChildren (kmoves : List Move) :
    List PyBoard → List Node → List Gen → StepRes
  | seen, wl, [] => StepRes.next seen wl
  | _, _, Gen.genErr :: _ => StepRes.bad
  | seen, wl, Gen.child nb nm :: rest =>
    let bf := baseform nb
    if bf ∈ seen then processChildren kmoves seen wl rest
    else
      match accept nb with
      | none => StepRes.bad
      | some true => StepRes.sol nb (kmoves ++ [nm])
      | some false =>
        if kmoves.getLast? = some nm then
          processChildren kmoves (seen ++ [bf])
            ((nb, kmoves.dropLast ++ [doubleMove nm]) :: wl) rest
        else
          processChildren kmoves (seen ++ [bf]) (wl ++ [(nb, kmoves ++ [nm])]) rest

/-- Outcome of `search`: a returned `(nboard, kmoves+[nmove])` solution, the
final `return None` together with the `seen` set at that point, a raised
exception, or fuel exhaustion of the model (the source loops unboundedly). -/
inductive SearchOutcome where
  | found : PyBoard → List Move → SearchOutcome
  | noSolution : List PyBoard → SearchOutcome
  | crash : SearchOutcome
  | outOfFuel : SearchOutcome
deriving DecidableEq

/-- The `while len(worklist) > 0` loop of `search` (source lines 156-178).
The deque is a list with its front at the head (`popleft` = head,
`appendleft` = cons, `append` = snoc); `seen` is the list of recorded
baseforms (only membership and final contents are observed). -/
def searchLoop : Nat → List PyBoard → List Node → SearchOutcome
  | 0, _, _ => SearchOutcome.outOfFuel
  | _ + 1, seen, [] => SearchOutcome.noSolution seen
  | fuel + 1, seen, (kboard, kmoves) :: rest =>
    match possible_moves kboard with
    | none => SearchOutcome.crash
    | some gens =>
      match processChildren kmoves seen rest gens with
      | StepRes.sol b ms => SearchOutcome.found b ms
      | StepRes.bad => SearchOutcome.crash
      | StepRes.next seen2 wl2 => searchLoop fuel seen2 wl2

/-- `search(board)` ran for at most `fuel` iterations of the outer loop
(source lines 152-178, seeded with `[(board, [])]` and an empty seen set). -/
def search (board : PyBoard) (fuel : Nat) : SearchOutcome :=
  searchLoop fuel [] [(board, [])]

/-- Expansion of a recorded move into unit moves: the doubled moves written by
the search (`2*nmove[1], 2*nmove[2]` of a unit move) count as two unit moves;
all other recorded moves are unit moves. -/
def expandMove (m : Move) : List Move :=
  if (m.2.1 = 0 ∧ (m.2.2 = 2 ∨ m.2.2 = -2)) ∨ ((m.2.1 = 2 ∨ m.2.1 = -2) ∧ m.2.2 = 0) then
    [(m.1, m.2.1 / 2, m.2.2 / 2), (m.1, m.2.1 / 2, m.2.2 / 2)]
  else [m]

/-- A recorded move list, uncompressed into single-cell moves. -/
def uncompressed (ms : List Move) : List Move := ms.flatMap expandMove

/-- Apply a sequence of moves with `move_piece`, failing if any application
does not succeed. -/
def runMoves : PyBoard → List Move → Option PyBoard
  | b, [] => some b
  | b, m :: ms =>
    match move_piece b m with
    | MoveRes.ok b2 => runMoves b2 ms
    | _ => none

/-- Occurrences of a piece identifier on the board (number of cells it holds). -/
def cnt (s : String) (b : PyBoard) : Nat := b.flatten.count s

/-- Number of cells occupied by a hole identifier. -/
def holeCells (b : PyBoard) : Nat := cnt "_1" b + cnt "_2" b

/-- Relabel every cell of a board. -/
def mapBoard (f : String → String) (b : PyBoard) : PyBoard :=
  b.map (fun row => row.map f)

/-- Identify the two hole identifiers (for equality up to hole interchange). -/
def collapseHoles (s : String) : String := if s = "_2" then "_1" else s

/-- All rows have the width the source assumes (`len(board[0])`). -/
def rectRows (b : PyBoard) : Prop := ∀ row ∈ b, row.length = boardWidth b

/-- The row-major list of the cells of the axis-aligned rectangle with row
range `[x0, x1]` and column range `[y0, y1]`. -/
def rectSpan (x0 x1 y0 y1 : Nat) : List Cell :=
  (List.range' x0 (x1 + 1 - x0)).flatMap
    (fun x => (List.range' y0 (y1 + 1 - y0)).map (fun y => (x, y)))

/-- The bounding rectangle of a nonempty list of cells. -/
def rectOf (cs : List Cell) : List Cell :=
  match cs with
  | [] => []
  | c :: rest =>
    rectSpan ((rest.map Prod.fst).foldl min c.1) ((rest.map Prod.fst).foldl max c.1)
      ((rest.map Prod.snd).foldl min c.2) ((rest.map Prod.snd).foldl max c.2)

/-- The cells of `p` form exactly their bounding axis-aligned rectangle. -/
def pieceIsRect (b : PyBoard) (p : String) : Prop :=
  piece_locations b p = rectOf (piece_locations b p)

/-- A well-formed board (§3 of the specification): nonempty rectangular grid,
each of the two hole identifiers occupying exactly one cell, and every piece
occupying a full axis-aligned rectangle of cells.  (The partition condition
is automatic: each cell holds exactly one identifier by representation.) -/
def WellFormed (b : PyBoard) : Prop :=
  0 < b.length ∧ rectRows b ∧ cnt "_1" b = 1 ∧ cnt "_2" b = 1 ∧
  ∀ p ∈ uniqOrdered b.flatten, pieceIsRect b p

instance (b : PyBoard) : Decidable (WellFormed b) := by
  unfold WellFormed rectRows pieceIsRect; infer_instance

/-- Boards reachable from `b0` by finite sequences of successful
`move_piece` applications. -/
inductive Reaches (b0 : PyBoard) : PyBoard → Prop where
  | refl : Reaches b0 b0
  | step : ∀ {b b2 : PyBoard} (m : Move), Reaches b0 b →
      move_piece b m = MoveRes.ok b2 → Reaches b0 b2

/-- The `start_board` of the source with the red piece already at the goal
(the layout sketched in the source's problem comment, lines 10-15). -/
def boardG : PyBoard :=
  [["w1", "w1", "g1", "g2", "_1"],
   ["w2", "w3", "w4", "r", "r"],
   ["w2", "w3", "w4", "r", "r"],
   ["w5", "w5", "g3", "g4", "_2"]]

/-- The board returned by `search boardG`: `g2` slid right into the hole. -/
def boardG1 : PyBoard :=
  [["w1", "w1", "g1", "_1", "g2"],
   ["w2", "w3", "w4", "r", "r"],
   ["w2", "w3", "w4", "r", "r"],
   ["w5", "w5", "g3", "g4", "_2"]]

/-- A fully locked board: both holes sit at the centre of a pinwheel of
dominoes, so every slide towards a hole is blocked and `possible_moves`
yields nothing. -/
def boardL : PyBoard :=
  [["a", "b", "b", "e", "f", "f"],
   ["a", "_1", "c", "e", "_2", "g"],
   ["d", "d", "c", "h", "h", "g"]]

/-- Hole-swap board for move reversibility: the horizontal piece `a` slides
down into both holes at once. -/
def boardS : PyBoard := [["a", "a"], ["_2", "_1"]]

/-- Board on which a unit move succeeds by Python negative-index wraparound:
`a` slides left, its displaced cell `(0, -1)` wrapping to `(0, 2)`. -/
def boardW : PyBoard := [["a", "a", "_1"], ["b", "b", "_2"]]

/-- One-row board for an out-of-range displaced read (IndexError). -/
def boardE : PyBoard := [["a", "_1", "_2"]]

/-- The `start_board` of the source (lines 86-89). -/
def start_board : PyBoard :=
  [["w1", "w1", "g1", "g2", "_1"],
   ["r", "r", "w2", "w3", "w4"],
   ["r", "r", "w2", "w3", "w4"],
   ["w5", "w5", "g3", "g4", "_2"]]

/-- A move with a unit displacement, as produced by `possible_moves`. -/
def isUnit (m : Move) : Prop :=
  m.2 ∈ ([(-1, 0), (1, 0), (0, -1), (0, 1)] : List (Int × Int))

/-- Soundness invariant of the work queue: every queued node's move list,
uncompressed, is a successful `move_piece` path from the start board to the
node's board. -/
def WlInv (start : PyBoard) (wl : List Node) : Prop :=
  ∀ node ∈ wl, runMoves start (uncompressed node.2) = some node.1

/-- Soundness of one child-processing step: a returned solution is a valid
path to an accepted board, and a continued queue keeps the invariant. -/
def StepSound (start : PyBoard) : StepRes → Prop
  | StepRes.sol b ms =>
      runMoves start (uncompressed ms) = some b ∧ accept b = some true
  | StepRes.next _ wl2 => WlInv start wl2
  | StepRes.bad => True

/-- A 3-by-6 board on which the search's move-run compression returns a
non-minimal solution (the front-of-queue reinsertion expands a doubled-move
node before the rest of its breadth-first layer). -/
def boardC2 : PyBoard :=
  [["_1", "g1", "g1", "r", "r", "w1"],
   ["w2", "_2", "w3", "r", "r", "w1"],
   ["g2", "w4", "w4", "g3", "g3", "g4"]]

/-- The board of the solution `search` returns on `boardC2`. -/
def boardC2res : PyBoard :=
  [["w2", "g1", "g1", "_1", "_2", "w1"],
   ["w3", "w4", "w4", "r", "r", "w1"],
   ["g2", "g3", "g3", "r", "r", "g4"]]

/-- The move list `search` returns on `boardC2`: seven uncompressed moves. -/
def c2moves : List Move :=
  [("w2", -1, 0), ("w3", 0, -2), ("w4", -1, 0), ("g3", 0, -2), ("r", 1, 0)]

/-- A shorter play on `boardC2`: six single-cell moves to a goal board. -/
def c2path : List Move :=
  [("g1", 0, -1), ("w3", -1, 0), ("w4", -1, 0), ("g3", 0, -1), ("g3", 0, -1),
   ("r", 1, 0)]

/-- The goal board reached by `c2path`. -/
def boardC2goal : PyBoard :=
  [["g1", "g1", "w3", "_1", "_2", "w1"],
   ["w2", "w4", "w4", "r", "r", "w1"],
   ["g2", "g3", "g3", "r", "r", "g4"]]

/-! ### Shape of returned solutions -/

/-- Any solution emitted while processing children extends the popped node's
move list by exactly one generated move. -/
theorem processChildren_sol_shape (kmoves : List Move) (gens : List Gen) :
    ∀ (seen : List PyBoard) (wl : List Node) (b : PyBoard) (ms : List Move),
    processChildren kmoves seen wl gens = StepRes.sol b ms →
    ∃ nm, ms = kmoves ++ [nm] ∧ accept b = some true := by
  induction gens with
  | nil => intro seen wl b ms h; simp [processChildren] at h
  | cons g rest ih =>
    intro seen wl b ms h
    cases g with
    | genErr => simp [processChildren] at h
    | child nb nm =>
      simp only [processChildren] at h
      by_cases hb : baseform nb ∈ seen
      · rw [if_pos hb] at h
        exact ih _ _ _ _ h
      · rw [if_neg hb] at h
        cases hacc : accept nb with
        | none => rw [hacc] at h; exact absurd h (by simp)
        | some tv =>
          rw [hacc] at h
          cases tv with
          | true =>
            simp at h
            exact ⟨nm, h.2.symm, h.1 ▸ hacc⟩
          | false =>
            by_cases hl : kmoves.getLast? = some nm
            · rw [if_pos hl] at h; exact ih _ _ _ _ h
            · rw [if_neg hl] at h; exact ih _ _ _ _ h

/-- Any solution returned by the search loop has a nonempty move list. -/
theorem searchLoop_found_ne_nil (fuel : Nat) :
    ∀ (seen : List PyBoard) (wl : List Node) (b : PyBoard) (ms : List Move),
    searchLoop fuel seen wl = SearchOutcome.found b ms → ms ≠ [] := by
  induction fuel with
  | zero => intro seen wl b ms h; simp [searchLoop] at h
  | succ n ih =>
    intro seen wl b ms h
    cases wl with
    | nil => simp [searchLoop] at h
    | cons node rest =>
      obtain ⟨kb, km⟩ := node
      simp only [searchLoop] at h
      cases hpm : possible_moves kb with
      | none => rw [hpm] at h; simp at h
      | some gens =>
        simp only [hpm] at h
        cases hpc : processChildren km seen rest gens with
        | sol b2 ms2 =>
          simp only [hpc] at h
          simp at h
          obtain ⟨nm, hshape, -⟩ := processChildren_sol_shape km gens seen rest b2 ms2 hpc
          rw [← h.2, hshape]
          simp
        | next s2 w2 => simp only [hpc] at h; exact ih _ _ _ _ h
        | bad => simp only [hpc] at h; simp at h

/-- C1 counterexample: on the board `boardG`, whose goal predicate already
holds, `search` does not return a zero-move solution: it expands the start
node and returns a one-move solution (sliding `g2`) — the goal is never
tested on the start board itself. -/
theorem c1_counterexample :
    accept boardG = some true ∧
    search boardG 1 = SearchOutcome.found boardG1 [("g2", 0, 1)] := by
  exact ⟨by decide, by decide⟩

/-- C1 (amended): `search` never tests the goal on the start board, only on
generated successors, so even a start that already satisfies the goal
predicate is expanded and any returned solution carries at least one move;
a zero-move solution is never returned. -/
theorem c1_goal_start_no_zero_move_solution (b : PyBoard) (fuel : Nat)
    (hgoal : accept b = some true) (b2 : PyBoard) (ms : List Move)
    (h : search b fuel = SearchOutcome.found b2 ms) : ms ≠ [] :=
  searchLoop_found_ne_nil fuel [] [(b, [])] b2 ms h

/-- Witness for the amended C1 at the concrete goal-satisfying board. -/
theorem c1_witness : ([("g2", 0, 1)] : List Move) ≠ [] :=
  c1_goal_start_no_zero_move_solution boardG 1 (by decide) boardG1 [("g2", 0, 1)]
    (by decide)

/-- C5 counterexample: on the fully locked non-goal board `boardL`,
`search` does return the no-solution value, but the visited set it ends with
is empty — the canonical form of the start board is never inserted, so the
visited set does not contain exactly that one element. -/
theorem c5_counterexample :
    possible_moves boardL = some [] ∧ accept boardL = some false ∧
    search boardL 2 = SearchOutcome.noSolution [] ∧
    ([] : List PyBoard) ≠ [baseform boardL] := by
  exact ⟨by decide, by decide, by decide, by decide⟩

/-- C5 (amended): started on a board with no legal successor that does not
satisfy the goal predicate, `search` returns the explicit no-solution value
(not a crash) with an empty visited set: the start board's canonical form is
never added to the visited set. -/
theorem c5_no_successors_no_solution_empty_seen (b : PyBoard) (fuel : Nat)
    (hmoves : possible_moves b = some [])
    (hgoal : accept b ≠ some true) :
    search b (fuel + 2) = SearchOutcome.noSolution [] := by
  show searchLoop (fuel + 1 + 1) [] [(b, [])] = SearchOutcome.noSolution []
  simp only [searchLoop, hmoves, processChildren]

/-- Witness for the amended C5 at the locked pinwheel board. -/
theorem c5_witness : search boardL 2 = SearchOutcome.noSolution [] :=
  c5_no_successors_no_solution_empty_seen boardL 0 (by decide) (by decide)

/-- C6: for an unseen, non-goal successor `(nboard, nmove)` of the popped
node `(kboard, kmoves)`, the search pushes
`(nboard, kmoves[:-1] ++ [(piece, 2*dx, 2*dy)])` at the front of the queue
when `kmoves` is nonempty and its last move equals `nmove` (same piece and
same displacement), and pushes `(nboard, kmoves ++ [nmove])` at the back
otherwise. -/
theorem c6_compression_step (kmoves : List Move) (seen : List PyBoard)
    (wl : List Node) (nb : PyBoard) (nm : Move) (rest : List Gen)
    (hseen : baseform nb ∉ seen) (hacc : accept nb = some false) :
    processChildren kmoves seen wl (Gen.child nb nm :: rest) =
      (if kmoves.getLast? = some nm then
        processChildren kmoves (seen ++ [baseform nb])
          ((nb, kmoves.dropLast ++ [doubleMove nm]) :: wl) rest
      else
        processChildren kmoves (seen ++ [baseform nb])
          (wl ++ [(nb, kmoves ++ [nm])]) rest) := by
  simp only [processChildren, if_neg hseen, hacc]

/-- Witness for C6 at a concrete compression step (third and fourth conjuncts
evaluate the two branches at concrete inputs). -/
theorem c6_witness :
    processChildren [("a", 0, 1)] [] [] [Gen.child boardL ("a", 0, 1)] =
      processChildren [("a", 0, 1)] [baseform boardL]
        [(boardL, [("a", 0, 2)])] [] := by
  have h := c6_compression_step [("a", 0, 1)] [] [] boardL ("a", 0, 1) []
    (by decide) (by decide)
  simpa using h

/-! ### Soundness of returned solutions (claim C2) -/

/-- Unit moves expand to themselves. -/
theorem expandMove_unit {m : Move} (h : isUnit m) : expandMove m = [m] := by
  obtain ⟨p, d⟩ := m
  simp only [isUnit, List.mem_cons, List.mem_singleton, List.not_mem_nil, or_false] at h
  rcases h with h | h | h | h <;> subst h <;> rfl

/-- Doubling a unit move expands to two copies of it. -/
theorem expandMove_double {m : Move} (h : isUnit m) :
    expandMove (doubleMove m) = [m, m] := by
  obtain ⟨p, d⟩ := m
  simp only [isUnit, List.mem_cons, List.mem_singleton, List.not_mem_nil, or_false] at h
  rcases h with h | h | h | h <;> subst h <;> rfl

/-- Running a concatenation of move lists runs them in sequence. -/
theorem runMoves_append (b : PyBoard) (ms1 ms2 : List Move) :
    runMoves b (ms1 ++ ms2) = (runMoves b ms1).bind (fun b1 => runMoves b1 ms2) := by
  induction ms1 generalizing b with
  | nil => simp [runMoves]
  | cons m ms ih =>
    simp only [List.cons_append, runMoves]
    cases move_piece b m <;> simp [ih]

/-- Uncompression distributes over concatenation. -/
theorem uncompressed_append (ms1 ms2 : List Move) :
    uncompressed (ms1 ++ ms2) = uncompressed ms1 ++ uncompressed ms2 := by
  simp [uncompressed]

/-- A list with a known last element splits off that element. -/
theorem getLast?_decomp {α : Type} {l : List α} {a : α} (h : l.getLast? = some a) :
    l = l.dropLast ++ [a] := by
  induction l using List.reverseRecOn with
  | nil => simp at h
  | append_singleton as a2 _ =>
    rw [List.getLast?_concat] at h
    obtain rfl := Option.some.inj h
    simp

/-- Replacing the repeated last move by its doubled form preserves the
uncompressed move sequence extended by one more unit move (lines 171-173 of
the source). -/
theorem uncompressed_double {km : List Move} {nm : Move} (hu : isUnit nm)
    (hl : km.getLast? = some nm) :
    uncompressed (km.dropLast ++ [doubleMove nm]) = uncompressed km ++ [nm] := by
  conv_rhs => rw [getLast?_decomp hl]
  rw [uncompressed_append, uncompressed_append]
  simp [uncompressed, expandMove_unit hu, expandMove_double hu]

/-- A child yielded by one `possible_moves` candidate is a successful unit
move from the expanded board. -/
theorem genAt_child_spec {board : PyBoard} {h : Cell} {d : Int × Int}
    (hd : d ∈ dirList) {nb : PyBoard} {nm : Move}
    (hg : genAt board h d = some (Gen.child nb nm)) :
    move_piece board nm = MoveRes.ok nb ∧ isUnit nm := by
  unfold genAt at hg
  split at hg
  · cases hcell : cellOf board (((h.1 : Int) + d.1).toNat, ((h.2 : Int) + d.2).toNat) with
    | none => rw [hcell] at hg; simp at hg
    | some piece =>
      simp only [hcell] at hg
      cases hmv : move_piece board (piece, -d.1, -d.2) with
      | ok nb2 =>
        simp only [hmv] at hg
        simp at hg
        obtain ⟨rfl, rfl⟩ := hg
        refine ⟨hmv, ?_⟩
        simp only [dirList, List.mem_cons, List.mem_singleton, List.not_mem_nil,
          or_false] at hd
        rcases hd with h1 | h1 | h1 | h1 <;> subst h1 <;> simp [isUnit]
      | noMove => simp only [hmv] at hg; simp at hg
      | err => simp only [hmv] at hg; simp at hg
  · simp at hg

/-- Every child in the `possible_moves` event list is a successful unit move
from the expanded board. -/
theorem possible_moves_child {board : PyBoard} {gens : List Gen}
    (hpm : possible_moves board = some gens) {nb : PyBoard} {nm : Move}
    (hmem : Gen.child nb nm ∈ gens) :
    move_piece board nm = MoveRes.ok nb ∧ isUnit nm := by
  unfold possible_moves at hpm
  cases h1 : (piece_locations board "_1").head? with
  | none => rw [h1] at hpm; simp at hpm
  | some hole1 =>
    cases h2 : (piece_locations board "_2").head? with
    | none => rw [h1, h2] at hpm; simp at hpm
    | some hole2 =>
      rw [h1, h2] at hpm
      simp only [Option.some.injEq] at hpm
      subst hpm
      rw [List.mem_flatMap] at hmem
      obtain ⟨hole, -, hmem2⟩ := hmem
      rw [List.mem_filterMap] at hmem2
      obtain ⟨d, hd, hgen⟩ := hmem2
      exact genAt_child_spec hd hgen

/-- Processing the children of a popped node preserves queue soundness and
only returns sound solutions. -/
theorem processChildren_sound (start kb : PyBoard) (kmoves : List Move)
    (hkb : runMoves start (uncompressed kmoves) = some kb) (gens : List Gen)
    (hg : ∀ nb nm, Gen.child nb nm ∈ gens →
      move_piece kb nm = MoveRes.ok nb ∧ isUnit nm) :
    ∀ (seen : List PyBoard) (wl : List Node), WlInv start wl →
    StepSound start (processChildren kmoves seen wl gens) := by
  induction gens with
  | nil =>
    intro seen wl hwl
    simpa [processChildren, StepSound] using hwl
  | cons g rest ih =>
    intro seen wl hwl
    have hgrest : ∀ nb nm, Gen.child nb nm ∈ rest →
        move_piece kb nm = MoveRes.ok nb ∧ isUnit nm :=
      fun nb nm hm => hg nb nm (List.mem_cons_of_mem _ hm)
    cases g with
    | genErr => simp [processChildren, StepSound]
    | child nb nm =>
      have hnb := hg nb nm (List.mem_cons_self _ _)
      simp only [processChildren]
      by_cases hb : baseform nb ∈ seen
      · rw [if_pos hb]
        exact ih hgrest seen wl hwl
      · rw [if_neg hb]
        cases hacc : accept nb with
        | none => simp [StepSound]
        | some tv =>
          cases tv with
          | true =>
            simp only [StepSound]
            refine ⟨?_, hacc⟩
            rw [uncompressed_append, runMoves_append, hkb]
            simp [uncompressed, expandMove_unit hnb.2, runMoves, hnb.1]
          | false =>
            by_cases hl : kmoves.getLast? = some nm
            · rw [if_pos hl]
              apply ih hgrest
              intro node hn
              rcases List.mem_cons.mp hn with rfl | hn
              · show runMoves start
                  (uncompressed (kmoves.dropLast ++ [doubleMove nm])) = some nb
                rw [uncompressed_double hnb.2 hl, runMoves_append, hkb]
                simp [runMoves, hnb.1]
              · exact hwl node hn
            · rw [if_neg hl]
              apply ih hgrest
              intro node hn
              rcases List.mem_append.mp hn with hn | hn
              · exact hwl node hn
              · rw [List.mem_singleton.mp hn]
                show runMoves start (uncompressed (kmoves ++ [nm])) = some nb
                rw [uncompressed_append, runMoves_append, hkb]
                simp [uncompressed, expandMove_unit hnb.2, runMoves, hnb.1]

/-- Any solution the search loop returns is reached from the start by running
its uncompressed move list, and satisfies the goal predicate. -/
theorem searchLoop_sound (start : PyBoard) (fuel : Nat) :
    ∀ (seen : List PyBoard) (wl : List Node), WlInv start wl →
    ∀ (b : PyBoard) (ms : List Move),
    searchLoop fuel seen wl = SearchOutcome.found b ms →
    runMoves start (uncompressed ms) = some b ∧ accept b = some true := by
  induction fuel with
  | zero => intro _ _ _ b ms h; simp [searchLoop] at h
  | succ n ih =>
    intro seen wl hwl b ms h
    cases wl with
    | nil => simp [searchLoop] at h
    | cons node rest =>
      obtain ⟨kb, km⟩ := node
      simp only [searchLoop] at h
      cases hpm : possible_moves kb with
      | none => rw [hpm] at h; simp at h
      | some gens =>
        simp only [hpm] at h
        have hkb : runMoves start (uncompressed km) = some kb :=
          hwl (kb, km) (List.mem_cons_self _ _)
        have hrest : WlInv start rest := fun nd hn => hwl nd (List.mem_cons_of_mem _ hn)
        have hsound := processChildren_sound start kb km hkb gens
          (fun nb nm hm => possible_moves_child hpm hm) seen rest hrest
        cases hpc : processChildren km seen rest gens with
        | sol b2 ms2 =>
          simp only [hpc] at h
          simp at h
          rw [hpc] at hsound
          obtain ⟨rfl, rfl⟩ := h
          exact hsound
        | next s2 w2 =>
          simp only [hpc] at h
          rw [hpc] at hsound
          exact ih s2 w2 hsound b ms h
        | bad => simp only [hpc] at h; simp at h

/-- C2 counterexample: on `boardC2` the search returns a solution whose move
list uncompresses to seven single-cell moves, while an explicit six-move
single-cell play from the same start reaches a goal board — so the returned
solution is not minimal over the reachable state graph. -/
theorem c2_counterexample :
    search boardC2 40 = SearchOutcome.found boardC2res c2moves ∧
    (uncompressed c2moves).length = 7 ∧
    runMoves boardC2 c2path = some boardC2goal ∧
    accept boardC2goal = some true ∧
    (uncompressed c2path).length = 6 := by
  exact ⟨by decide, by decide, by decide, by decide, by decide⟩

/-- C2 (amended): every solution `(board, moves)` returned by `search` is
sound — uncompressing `moves` (each doubled-displacement move counting as two
unit moves) gives a sequence of successful `move_piece` applications leading
from the start board to `board`, and `board` satisfies the goal predicate —
so its uncompressed length is an upper bound on the minimal goal distance;
it need not equal that minimum. -/
theorem c2_solutions_are_sound (b : PyBoard) (fuel : Nat) (b2 : PyBoard)
    (ms : List Move) (h : search b fuel = SearchOutcome.found b2 ms) :
    runMoves b (uncompressed ms) = some b2 ∧ accept b2 = some true := by
  apply searchLoop_sound b fuel [] [(b, [])] ?_ b2 ms h
  intro node hn
  rw [List.mem_singleton.mp hn]
  rfl

/-- Witness for the amended C2 at the concrete `boardC2` run. -/
theorem c2_witness :
    runMoves boardC2 (uncompressed c2moves) = some boardC2res ∧
    accept boardC2res = some true :=
  c2_solutions_are_sound boardC2 40 boardC2res c2moves (by decide)

/-! ### The string order used by the canonicalizer -/

/-- Python string comparison is irreflexive. -/
theorem lexLt_irrefl : ∀ l : List Char, lexLt l l = false
  | [] => rfl
  | a :: as => by simp [lexLt, lexLt_irrefl as]

/-- Python string comparison is transitive. -/
theorem lexLt_trans : ∀ {a b c : List Char},
    lexLt a b = true → lexLt b c = true → lexLt a c = true
  | [], [], _ :: _, h1, _ => by simp [lexLt] at h1
  | [], _ :: _, _ :: _, _, _ => rfl
  | _ :: _, _ :: _, [], _, h2 => by simp [lexLt] at h2
  | a :: as, b :: bs, c :: cs, h1, h2 => by
    simp only [lexLt] at h1 h2 ⊢
    rcases lt_trichotomy a b with hab | hab | hab
    · rcases lt_trichotomy b c with hbc | hbc | hbc
      · rw [if_pos (lt_trans hab hbc)]
      · subst hbc; rw [if_pos hab]
      · rw [if_neg (lt_asymm hbc), if_pos hbc] at h2; exact absurd h2 (by simp)
    · subst hab
      rw [if_neg (lt_irrefl a), if_neg (lt_irrefl a)] at h1
      rcases lt_trichotomy a c with hac | hac | hac
      · rw [if_pos hac]
      · subst hac
        rw [if_neg (lt_irrefl a), if_neg (lt_irrefl a)] at h2 ⊢
        exact lexLt_trans h1 h2
      · rw [if_neg (lt_asymm hac), if_pos hac] at h2; exact absurd h2 (by simp)
    · rw [if_neg (lt_asymm hab), if_pos hab] at h1; exact absurd h1 (by simp)

/-- Python string comparison is connex: incomparable strings are equal. -/
theorem lexLt_connex : ∀ {a b : List Char},
    lexLt a b = false → lexLt b a = false → a = b
  | [], [], _, _ => rfl
  | [], _ :: _, h1, _ => by simp [lexLt] at h1
  | _ :: _, [], _, h2 => by simp [lexLt] at h2
  | a :: as, b :: bs, h1, h2 => by
    simp only [lexLt] at h1 h2
    rcases lt_trichotomy a b with hab | hab | hab
    · rw [if_pos hab] at h1; exact absurd h1 (by simp)
    · subst hab
      rw [if_neg (lt_irrefl a), if_neg (lt_irrefl a)] at h1 h2
      rw [lexLt_connex h1 h2]
    · rw [if_pos hab] at h2; exact absurd h2 (by simp)

/-- Totality of the `sorted` comparison. -/
theorem strLeB_total (s t : String) : strLeB s t = true ∨ strLeB t s = true := by
  unfold strLeB
  cases h : lexLt t.data s.data with
  | false => left; simp [h]
  | true =>
    right
    cases h2 : lexLt s.data t.data with
    | false => simp
    | true => exact absurd (lexLt_trans h h2) (by simp [lexLt_irrefl])

/-- Transitivity of the `sorted` comparison. -/
theorem strLeB_trans {a b c : String} (h1 : strLeB a b = true)
    (h2 : strLeB b c = true) : strLeB a c = true := by
  unfold strLeB at h1 h2 ⊢
  simp only [Bool.not_eq_true'] at h1 h2 ⊢
  cases hca : lexLt c.data a.data with
  | false => rfl
  | true =>
    cases hbc : lexLt b.data c.data with
    | true => exact absurd (lexLt_trans hbc hca) (by simp [h1])
    | false =>
      have hcb : c.data = b.data := lexLt_connex h2 hbc
      rw [hcb, h1] at hca
      exact hca.symm

/-- Antisymmetry of the `sorted` comparison. -/
theorem strLeB_antisymm {a b : String} (h1 : strLeB a b = true)
    (h2 : strLeB b a = true) : a = b := by
  unfold strLeB at h1 h2
  simp only [Bool.not_eq_true'] at h1 h2
  exact String.ext (lexLt_connex h2 h1)

/-- The comparison of `sortStr` is total. -/
@[instance] theorem strLeR_total : IsTotal String strLeR := ⟨strLeB_total⟩

/-- The comparison of `sortStr` is transitive. -/
@[instance] theorem strLeR_trans : IsTrans String strLeR := ⟨fun _ _ _ => strLeB_trans⟩

/-- The comparison of `sortStr` is antisymmetric. -/
@[instance] theorem strLeR_antisymm : IsAntisymm String strLeR := ⟨fun _ _ => strLeB_antisymm⟩

/-- `sortStr` permutes its input. -/
theorem sortStr_perm (l : List String) : (sortStr l).Perm l :=
  List.perm_insertionSort _ l

/-- `sortStr` output is sorted. -/
theorem sortStr_sorted (l : List String) : List.Sorted strLeR (sortStr l) :=
  List.sorted_insertionSort _ l

/-- Permuted lists have the same `sortStr` image. -/
theorem sortStr_eq_of_perm {l1 l2 : List String} (h : l1.Perm l2) :
    sortStr l1 = sortStr l2 :=
  List.eq_of_perm_of_sorted ((sortStr_perm l1).trans (h.trans (sortStr_perm l2).symm))
    (sortStr_sorted l1) (sortStr_sorted l2)

/-! ### The canonicalizer: uniq_ordered and pmap -/

/-- Membership in `uniqAux`: exactly the elements of the list not yet seen. -/
theorem mem_uniqAux : ∀ (acc l : List String) (x : String),
    x ∈ uniqAux acc l ↔ x ∈ l ∧ x ∉ acc
  | acc, [], x => by simp [uniqAux]
  | acc, y :: ys, x => by
    simp only [uniqAux]
    by_cases hy : y ∈ acc
    · rw [if_pos hy, mem_uniqAux]
      constructor
      · exact fun h => ⟨List.mem_cons_of_mem _ h.1, h.2⟩
      · rintro ⟨h1, h2⟩
        rcases List.mem_cons.mp h1 with rfl | h1
        · exact absurd hy h2
        · exact ⟨h1, h2⟩
    · rw [if_neg hy]
      simp only [List.mem_cons, mem_uniqAux]
      constructor
      · rintro (rfl | ⟨h1, h2⟩)
        · exact ⟨Or.inl rfl, hy⟩
        · exact ⟨Or.inr h1, fun hx => h2 (Or.inr hx)⟩
      · rintro ⟨rfl | h1, h2⟩
        · exact Or.inl rfl
        · by_cases hxy : x = y
          · exact Or.inl hxy
          · exact Or.inr ⟨h1, fun hx => hx.elim hxy h2⟩

/-- Membership in `uniq_ordered`. -/
theorem mem_uniqOrdered (l : List String) (x : String) :
    x ∈ uniqOrdered l ↔ x ∈ l := by
  simp [uniqOrdered, mem_uniqAux]

/-- `uniqAux` never repeats an element. -/
theorem nodup_uniqAux : ∀ (acc l : List String), (uniqAux acc l).Nodup
  | _, [] => List.nodup_nil
  | acc, y :: ys => by
    simp only [uniqAux]
    by_cases hy : y ∈ acc
    · rw [if_pos hy]; exact nodup_uniqAux acc ys
    · rw [if_neg hy]
      refine List.nodup_cons.mpr ⟨?_, nodup_uniqAux _ ys⟩
      rw [mem_uniqAux]
      rintro ⟨-, h2⟩
      exact h2 (List.mem_cons_self _ _)

/-- `uniq_ordered` never repeats an element. -/
theorem nodup_uniqOrdered (l : List String) : (uniqOrdered l).Nodup :=
  nodup_uniqAux [] l

/-- `uniqAux` commutes with a relabelling injective over the seen and
remaining elements. -/
theorem uniqAux_map (f : String → String) :
    ∀ (acc l : List String),
    (∀ a b, a ∈ l → (b ∈ acc ∨ b ∈ l) → f a = f b → a = b) →
    uniqAux (acc.map f) (l.map f) = (uniqAux acc l).map f
  | _, [], _ => rfl
  | acc, y :: ys, hinj => by
    simp only [List.map_cons, uniqAux]
    have hmem : f y ∈ acc.map f ↔ y ∈ acc := by
      constructor
      · intro h
        obtain ⟨b, hb, hfb⟩ := List.mem_map.mp h
        rw [hinj y b (List.mem_cons_self _ _) (Or.inl hb) hfb.symm]
        exact hb
      · exact fun h => List.mem_map_of_mem f h
    by_cases hy : y ∈ acc
    · rw [if_pos (hmem.mpr hy), if_pos hy]
      exact uniqAux_map f acc ys (fun a b ha hb =>
        hinj a b (List.mem_cons_of_mem _ ha) (hb.imp id (List.mem_cons_of_mem _)))
    · rw [if_neg (fun h => hy (hmem.mp h)), if_neg hy, List.map_cons]
      have hrec : uniqAux ((y :: acc).map f) (ys.map f) =
          (uniqAux (y :: acc) ys).map f := by
        apply uniqAux_map f (y :: acc) ys
        intro a b ha hb
        apply hinj a b (List.mem_cons_of_mem _ ha)
        rcases hb with hb | hb
        · rcases List.mem_cons.mp hb with rfl | hb
          · exact Or.inr (List.mem_cons_self _ _)
          · exact Or.inl hb
        · exact Or.inr (List.mem_cons_of_mem _ hb)
      rw [← hrec]
      rfl

/-- `uniq_ordered` commutes with an injective relabelling. -/
theorem uniqOrdered_map (f : String → String) (l : List String)
    (hinj : ∀ a b, a ∈ l → b ∈ l → f a = f b → a = b) :
    uniqOrdered (l.map f) = (uniqOrdered l).map f := by
  apply uniqAux_map f [] l
  intro a b ha hb
  exact hinj a b ha (hb.resolve_left (by simp))

/-- A sorted string list is fixed by `sortStr`. -/
theorem sortStr_eq_self_of_sorted {l : List String}
    (h : List.Sorted strLeR l) : sortStr l = l :=
  h.insertionSort_eq

/-- `pmap` picks the element of the sorted type group at the piece's
first-occurrence index. -/
theorem pmap_eq_getElem {pieces : List String} {s : String} (hs : s ∈ pieces) :
    ∃ hlt : (pgroup pieces (tagOf s)).indexOf s <
        (sortStr (pgroup pieces (tagOf s))).length,
      pmap pieces s = (sortStr (pgroup pieces (tagOf s)))[
        (pgroup pieces (tagOf s)).indexOf s] := by
  have hg : s ∈ pgroup pieces (tagOf s) := List.mem_filter.mpr ⟨hs, by simp⟩
  have hidx : (pgroup pieces (tagOf s)).indexOf s <
      (sortStr (pgroup pieces (tagOf s))).length := by
    rw [(sortStr_perm _).length_eq]
    exact List.indexOf_lt_length.mpr hg
  refine ⟨hidx, ?_⟩
  show ((sortStr (pgroup pieces (tagOf s)))[
      (pgroup pieces (tagOf s)).indexOf s]?).getD s = _
  rw [List.getElem?_eq_getElem hidx]
  rfl

/-- `pmap` maps a piece into the sorted version of its own type group. -/
theorem pmap_mem_group {pieces : List String} {s : String} (hs : s ∈ pieces) :
    pmap pieces s ∈ pgroup pieces (tagOf s) := by
  obtain ⟨hlt, heq⟩ := pmap_eq_getElem hs
  rw [heq]
  exact (sortStr_perm _).mem_iff.mp (List.getElem_mem hlt)

/-- `pmap` preserves the type tag of board pieces. -/
theorem tagOf_pmap {pieces : List String} {s : String} (hs : s ∈ pieces) :
    tagOf (pmap pieces s) = tagOf s := by
  have h := (List.mem_filter.mp (pmap_mem_group hs)).2
  simpa [pgroup] using h

/-- `pmap` maps board pieces to board pieces. -/
theorem pmap_mem {pieces : List String} {s : String} (hs : s ∈ pieces) :
    pmap pieces s ∈ pieces :=
  (List.mem_filter.mp (pmap_mem_group hs)).1

/-- `pmap` is injective on a duplicate-free piece list. -/
theorem pmap_inj {pieces : List String} (hnd : pieces.Nodup) {s t : String}
    (hs : s ∈ pieces) (ht : t ∈ pieces)
    (heq : pmap pieces s = pmap pieces t) : s = t := by
  have htag : tagOf s = tagOf t := by
    rw [← tagOf_pmap hs, ← tagOf_pmap ht, heq]
  obtain ⟨hlt1, heq1⟩ := pmap_eq_getElem hs
  obtain ⟨hlt2, heq2⟩ := pmap_eq_getElem ht
  simp only [htag] at hlt1 heq1
  rw [heq1, heq2] at heq
  have hndg : (sortStr (pgroup pieces (tagOf t))).Nodup :=
    (sortStr_perm _).nodup_iff.mpr (hnd.filter _)
  have hidx : (pgroup pieces (tagOf t)).indexOf s =
      (pgroup pieces (tagOf t)).indexOf t :=
    (hndg.getElem_inj_iff).mp heq
  have hsg : s ∈ pgroup pieces (tagOf t) := by
    refine List.mem_filter.mpr ⟨hs, ?_⟩
    simp [pgroup, htag]
  have htg : t ∈ pgroup pieces (tagOf t) := List.mem_filter.mpr ⟨ht, by simp⟩
  exact (List.indexOf_inj hsg htg).mp hidx

/-- `pgroup` commutes with a tag-preserving relabelling. -/
theorem pgroup_map {pieces : List String} {f : String → String}
    (htag : ∀ s ∈ pieces, tagOf (f s) = tagOf s) (t : List Char) :
    pgroup (pieces.map f) t = (pgroup pieces t).map f := by
  unfold pgroup
  rw [List.filter_map]
  congr 1
  apply List.filter_congr
  intro x hx
  have h := htag x hx
  simp only [tagOf] at h
  simp [Function.comp, tagOf, h]

/-- Over a whole type group, `pmap` produces exactly the sorted group. -/
theorem map_pmap_group {pieces : List String} (hnd : pieces.Nodup)
    (t : List Char) :
    (pgroup pieces t).map (pmap pieces) = sortStr (pgroup pieces t) := by
  apply List.ext_getElem
  · rw [List.length_map, (sortStr_perm _).length_eq]
  intro i h1 h2
  rw [List.getElem_map]
  have hi : i < (pgroup pieces t).length := by
    simpa using h1
  have hmemg : (pgroup pieces t)[i] ∈ pgroup pieces t := List.getElem_mem hi
  have hmem : (pgroup pieces t)[i] ∈ pieces := (List.mem_filter.mp hmemg).1
  have htag2 : tagOf (pgroup pieces t)[i] = t := by
    have := (List.mem_filter.mp hmemg).2
    simpa [pgroup] using this
  obtain ⟨hlt, heq⟩ := pmap_eq_getElem hmem
  simp only [htag2] at hlt heq
  rw [heq]
  have hidx : (pgroup pieces t).indexOf (pgroup pieces t)[i] = i := by
    have := List.get_indexOf (hnd.filter _) ⟨i, hi⟩
    simpa using this
  simp only [hidx]

/-- `indexOf` commutes with a relabelling injective towards the sought
element. -/
theorem indexOf_map_inj {f : String → String} {s : String} :
    ∀ {l : List String}, (∀ a ∈ l, f a = f s → a = s) →
    (l.map f).indexOf (f s) = l.indexOf s
  | [], _ => rfl
  | x :: xs, hinj => by
    simp only [List.map_cons, List.indexOf_cons]
    by_cases hx : x = s
    · subst hx
      simp
    · have hfx : ¬ f x = f s := fun h => hx (hinj x (List.mem_cons_self _ _) h)
      have e1 : (f x == f s) = false := beq_eq_false_iff_ne.mpr hfx
      have e2 : (x == s) = false := beq_eq_false_iff_ne.mpr hx
      rw [e1, e2]
      simp only [cond_false]
      rw [indexOf_map_inj (fun a ha => hinj a (List.mem_cons_of_mem _ ha))]

/-- Flattening a relabelled board relabels the flattening. -/
theorem flatten_mapBoard (f : String → String) (b : PyBoard) :
    (mapBoard f b).flatten = (b.flatten).map f := by
  rw [mapBoard, List.map_flatten]

/-- A piece whose type group is already sorted is fixed by `pmap`. -/
theorem pmap_fix {pieces2 : List String} {y : String} (hy : y ∈ pieces2)
    (hsorted : List.Sorted strLeR (pgroup pieces2 (tagOf y))) :
    pmap pieces2 y = y := by
  obtain ⟨hlt, heq⟩ := pmap_eq_getElem hy
  rw [heq]
  have hss := sortStr_eq_self_of_sorted hsorted
  have hyg : y ∈ pgroup pieces2 (tagOf y) := List.mem_filter.mpr ⟨hy, by simp⟩
  simp only [hss]
  exact List.getElem_indexOf (List.indexOf_lt_length.mpr hyg)

/-- A board all of whose pieces are fixed by its `pmap` is its own baseform. -/
theorem baseform_eq_self_of_fix {b2 : PyBoard}
    (hfix : ∀ y ∈ b2.flatten, pmap (uniqOrdered b2.flatten) y = y) :
    baseform b2 = b2 := by
  unfold baseform
  conv_rhs => rw [← List.map_id b2]
  apply List.map_congr_left
  intro row hrow
  show row.map (pmap (uniqOrdered b2.flatten)) = id row
  rw [show id row = row from rfl]
  conv_rhs => rw [← List.map_id row]
  apply List.map_congr_left
  intro v hv
  exact hfix v (List.mem_flatten.mpr ⟨row, hrow, hv⟩)

/-- C9: `baseform(baseform(B)) == baseform(B)`: the canonicalizer is
idempotent (for every board, in particular every well-formed one). -/
theorem c9_baseform_idempotent (b : PyBoard) :
    baseform (baseform b) = baseform b := by
  have hnd : (uniqOrdered b.flatten).Nodup := nodup_uniqOrdered _
  have hinj : ∀ a a2, a ∈ b.flatten → a2 ∈ b.flatten →
      pmap (uniqOrdered b.flatten) a = pmap (uniqOrdered b.flatten) a2 →
      a = a2 :=
    fun a a2 ha ha2 h =>
      pmap_inj hnd ((mem_uniqOrdered _ _).mpr ha) ((mem_uniqOrdered _ _).mpr ha2) h
  have hflat : (baseform b).flatten =
      (b.flatten).map (pmap (uniqOrdered b.flatten)) := by
    unfold baseform
    exact (List.map_flatten _ _).symm
  have hpieces2 : uniqOrdered ((baseform b).flatten) =
      (uniqOrdered b.flatten).map (pmap (uniqOrdered b.flatten)) := by
    rw [hflat, uniqOrdered_map _ _ hinj]
  have hgroup2 : ∀ t,
      pgroup ((uniqOrdered b.flatten).map (pmap (uniqOrdered b.flatten))) t =
      sortStr (pgroup (uniqOrdered b.flatten) t) := by
    intro t
    rw [pgroup_map (fun s hs => tagOf_pmap hs), map_pmap_group hnd]
  apply baseform_eq_self_of_fix
  intro y hy
  rw [hpieces2]
  apply pmap_fix
  · rw [← hpieces2]
    exact (mem_uniqOrdered _ _).mpr hy
  · rw [hgroup2]
    exact sortStr_sorted _

/-- C7: for every board and every bijective relabelling of its piece
identifiers (a permutation of the identifiers on the board) that maps each
piece to a piece of the same type tag, the relabelled board has the same
baseform, cell for cell. -/
theorem c7_baseform_relabel_invariant (b : PyBoard) (f : String → String)
    (hperm : ((uniqOrdered b.flatten).map f).Perm (uniqOrdered b.flatten))
    (htag : ∀ s ∈ b.flatten, tagOf (f s) = tagOf s) :
    baseform (mapBoard f b) = baseform b := by
  have hnd : (uniqOrdered b.flatten).Nodup := nodup_uniqOrdered _
  have hnd2 : ((uniqOrdered b.flatten).map f).Nodup := hperm.nodup_iff.mpr hnd
  have hinj : ∀ a a2, a ∈ b.flatten → a2 ∈ b.flatten → f a = f a2 → a = a2 := by
    intro a a2 ha ha2 h
    exact List.inj_on_of_nodup_map hnd2 ((mem_uniqOrdered _ _).mpr ha)
      ((mem_uniqOrdered _ _).mpr ha2) h
  have hpieces2 : uniqOrdered ((mapBoard f b).flatten) =
      (uniqOrdered b.flatten).map f := by
    rw [flatten_mapBoard, uniqOrdered_map f _ hinj]
  have htagp : ∀ s ∈ uniqOrdered b.flatten, tagOf (f s) = tagOf s :=
    fun s hs => htag s ((mem_uniqOrdered _ _).mp hs)
  have hgroup : ∀ t, pgroup ((uniqOrdered b.flatten).map f) t =
      (pgroup (uniqOrdered b.flatten) t).map f :=
    fun t => pgroup_map htagp t
  have hsort : ∀ t, sortStr ((pgroup (uniqOrdered b.flatten) t).map f) =
      sortStr (pgroup (uniqOrdered b.flatten) t) := by
    intro t
    apply sortStr_eq_of_perm
    rw [← hgroup t]
    unfold pgroup
    exact hperm.filter _
  have hcell : ∀ s ∈ b.flatten,
      pmap ((uniqOrdered b.flatten).map f) (f s) =
      pmap (uniqOrdered b.flatten) s := by
    intro s hs
    have hsp : s ∈ uniqOrdered b.flatten := (mem_uniqOrdered _ _).mpr hs
    obtain ⟨hlt, heq⟩ := pmap_eq_getElem hsp
    obtain ⟨hlt2, heq2⟩ := pmap_eq_getElem (List.mem_map_of_mem f hsp)
    have e3 : ((pgroup (uniqOrdered b.flatten) (tagOf s)).map f).indexOf (f s) =
        (pgroup (uniqOrdered b.flatten) (tagOf s)).indexOf s := by
      apply indexOf_map_inj
      intro a ha hfa
      exact hinj a s ((mem_uniqOrdered _ _).mp (List.mem_filter.mp ha).1) hs hfa
    rw [heq2, heq]
    simp only [htag s hs, hgroup, hsort, e3]
  show (mapBoard f b).map
      (fun row => row.map (pmap (uniqOrdered ((mapBoard f b).flatten)))) =
    b.map (fun row => row.map (pmap (uniqOrdered b.flatten)))
  rw [hpieces2]
  unfold mapBoard
  rw [List.map_map]
  apply List.map_congr_left
  intro row hrow
  show (row.map f).map (pmap ((uniqOrdered b.flatten).map f)) =
    row.map (pmap (uniqOrdered b.flatten))
  rw [List.map_map]
  apply List.map_congr_left
  intro v hv
  exact hcell v (List.mem_flatten.mpr ⟨row, hrow, hv⟩)

/-- Witness for C7: swapping the two same-type pieces `w1` and `w2` of the
start board leaves its baseform unchanged. -/
theorem c7_witness :
    baseform (mapBoard
      (fun s => if s = "w1" then "w2" else if s = "w2" then "w1" else s)
      start_board) = baseform start_board :=
  c7_baseform_relabel_invariant start_board
    (fun s => if s = "w1" then "w2" else if s = "w2" then "w1" else s)
    (by decide) (by decide)

/-! ### Python indexing facts -/

/-- A successful Python index is in range and is the raw index or its wrap. -/
theorem pyIdx_some {n : Nat} {i : Int} {k : Nat} (h : pyIdx n i = some k) :
    k < n ∧ ((k : Int) = i ∨ (k : Int) = i + n) := by
  unfold pyIdx at h
  split at h
  next hc =>
    obtain rfl := Option.some.inj h
    omega
  next =>
    split at h
    next hc2 =>
      obtain rfl := Option.some.inj h
      omega
    next => exact absurd h (by simp)

/-- Python indexing of a nonnegative in-range index. -/
theorem pyIdx_of_lt {n k : Nat} (h : k < n) : pyIdx n (k : Int) = some k := by
  unfold pyIdx
  rw [if_pos (by omega)]
  simp

/-- Shifted Python indices of in-range bases collide only on equal bases. -/
theorem pyIdx_shift_inj {n x1 x2 : Nat} {d : Int} {k : Nat}
    (hx1 : x1 < n) (hx2 : x2 < n)
    (h1 : pyIdx n ((x1 : Int) + d) = some k)
    (h2 : pyIdx n ((x2 : Int) + d) = some k) : x1 = x2 := by
  obtain ⟨-, h1c⟩ := pyIdx_some h1
  obtain ⟨-, h2c⟩ := pyIdx_some h2
  omega

/-- Characterization of a successful Python read. -/
theorem pyGet_eq_some {α : Type} {l : List α} {i : Int} {v : α} :
    pyGet l i = some v ↔ ∃ k, pyIdx l.length i = some k ∧ l[k]? = some v := by
  unfold pyGet
  rw [Option.bind_eq_some]

/-- Characterization of a successful two-dimensional Python read. -/
theorem pyGet2_eq_some {board : PyBoard} {i j : Int} {v : String} :
    pyGet2 board i j = some v ↔
      ∃ r k, pyIdx board.length i = some r ∧
        pyIdx ((board.getD r []).length) j = some k ∧
        cellOf board (r, k) = some v := by
  unfold pyGet2
  rw [Option.bind_eq_some]
  constructor
  · rintro ⟨row, hrow, hcol⟩
    rw [pyGet_eq_some] at hrow
    obtain ⟨r, hr, hrow2⟩ := hrow
    rw [pyGet_eq_some] at hcol
    obtain ⟨k, hk, hv⟩ := hcol
    have hgd : board.getD r [] = row := by
      rw [List.getD_eq_getElem?_getD, hrow2]
      rfl
    refine ⟨r, k, hr, ?_, ?_⟩
    · rw [hgd]; exact hk
    · unfold cellOf
      rw [hrow2]
      exact hv
  · rintro ⟨r, k, hr, hk, hv⟩
    unfold cellOf at hv
    rw [Option.bind_eq_some] at hv
    obtain ⟨row, hrow2, hv⟩ := hv
    have hgd : board.getD r [] = row := by
      rw [List.getD_eq_getElem?_getD, hrow2]
      rfl
    refine ⟨row, ?_, ?_⟩
    · rw [pyGet_eq_some]
      exact ⟨r, hr, hrow2⟩
    · rw [pyGet_eq_some]
      refine ⟨k, ?_, hv⟩
      rw [← hgd]
      exact hk

/-- A successful two-dimensional Python read targets `wrapTarget`. -/
theorem pyGet2_wrapTarget {board : PyBoard} {dx dy : Int} {c : Cell} {v : String}
    (h : pyGet2 board ((c.1 : Int) + dx) ((c.2 : Int) + dy) = some v) :
    cellOf board (wrapTarget board dx dy c) = some v := by
  rw [pyGet2_eq_some] at h
  obtain ⟨r, k, hr, hk, hv⟩ := h
  unfold wrapTarget
  rw [hr]
  simp only [Option.getD_some]
  rw [hk]
  exact hv

/-! ### Shape preservation -/

/-- `setCellNat` preserves the number of rows. -/
theorem length_setCellNat (b : PyBoard) (c : Cell) (v : String) :
    (setCellNat b c v).length = b.length := by
  simp [setCellNat]

/-- `setCellNat` preserves every row length. -/
theorem rowLen_setCellNat (b : PyBoard) (c : Cell) (v : String) (i : Nat) :
    ((setCellNat b c v).getD i []).length = (b.getD i []).length := by
  simp only [List.getD_eq_getElem?_getD]
  unfold setCellNat
  rw [List.getElem?_set]
  by_cases h : c.1 = i
  · subst h
    by_cases hlt : c.1 < b.length
    · rw [if_pos rfl, if_pos hlt]
      simp [List.length_set, List.getD_eq_getElem?_getD,
        List.getElem?_eq_getElem hlt]
    · rw [if_pos rfl, if_neg hlt]
      rw [List.getElem?_eq_none (le_of_not_lt hlt)]
  · rw [if_neg h]

/-- `writePairs` preserves the number of rows. -/
theorem length_writePairs (ps : List (Cell × String)) :
    ∀ b : PyBoard, (writePairs b ps).length = b.length := by
  induction ps with
  | nil => intro b; rfl
  | cons p ps ih =>
    intro b
    rw [writePairs, ih, length_setCellNat]

/-- `writePairs` preserves every row length. -/
theorem rowLen_writePairs (ps : List (Cell × String)) :
    ∀ (b : PyBoard) (i : Nat),
      ((writePairs b ps).getD i []).length = (b.getD i []).length := by
  induction ps with
  | nil => intro b i; rfl
  | cons p ps ih =>
    intro b i
    rw [writePairs, ih, rowLen_setCellNat]

/-! ### Reading and permuting after writes -/

/-- Writing one cell leaves every other cell unchanged. -/
theorem cellOf_setCellNat_ne {b : PyBoard} {c c' : Cell} {v : String}
    (h : c' ≠ c) : cellOf (setCellNat b c v) c' = cellOf b c' := by
  unfold cellOf setCellNat
  rw [List.getElem?_set]
  by_cases hr : c.1 = c'.1
  · have hc : c.2 ≠ c'.2 := by
      intro h2
      exact h (Prod.ext hr.symm h2.symm)
    rw [if_pos hr]
    by_cases hlt : c.1 < b.length
    · rw [if_pos hlt]
      simp only [Option.some_bind]
      rw [List.getElem?_set_ne hc]
      rw [← hr] at *
      rw [List.getD_eq_getElem?_getD, List.getElem?_eq_getElem hlt]
      rfl
    · rw [if_neg hlt]
      rw [hr] at hlt
      rw [List.getElem?_eq_none (le_of_not_lt hlt)]
  · rw [if_neg hr]

/-- Writing one valid cell then reading it back gives the written value. -/
theorem cellOf_setCellNat_self {b : PyBoard} {c : Cell} {v : String}
    (h1 : c.1 < b.length) (h2 : c.2 < (b.getD c.1 []).length) :
    cellOf (setCellNat b c v) c = some v := by
  unfold cellOf setCellNat
  rw [List.getElem?_set, if_pos rfl, if_pos h1]
  simp only [Option.some_bind]
  exact List.getElem?_set_self h2

/-- One row write exchanges the old and new occupants, as multisets. -/
theorem perm_set_row : ∀ (row : List String) (j : Nat), j < row.length →
    ∀ v : String, (row.getD j "" :: row.set j v).Perm (v :: row)
  | [], j, hj, _ => by simp at hj
  | r :: rs, 0, _, v => by
    simp only [List.getD_cons_zero, List.set_cons_zero]
    exact List.Perm.swap v r rs
  | r :: rs, j + 1, hj, v => by
    simp only [List.getD_cons_succ, List.set_cons_succ]
    have ih := perm_set_row rs j (by simpa using hj) v
    exact (List.Perm.swap r (rs.getD j "") (rs.set j v)).trans
      ((ih.cons r).trans (List.Perm.swap v r rs))

/-- A valid cell write exchanges the old and new occupants in the
flattening, as multisets. -/
theorem perm_setCellNat : ∀ (b : PyBoard) (i j : Nat), i < b.length →
    j < (b.getD i []).length → ∀ v : String,
    (contentOf b (i, j) :: (setCellNat b (i, j) v).flatten).Perm (v :: b.flatten)
  | [], i, _, h1, _, _ => by simp at h1
  | row :: rest, 0, j, _, h2, v => by
    have h2a : j < row.length := by simpa using h2
    have hrow := perm_set_row row j h2a v
    have happ := hrow.append_right rest.flatten
    simpa [setCellNat, contentOf, cellOf, List.getD_eq_getElem?_getD] using happ
  | row :: rest, i + 1, j, h1, h2, v => by
    have h1a : i < rest.length := by simpa using h1
    have h2a : j < (rest.getD i []).length := by
      simpa [List.getD_cons_succ] using h2
    have ih := perm_setCellNat rest i j h1a h2a v
    have hc : contentOf (row :: rest) (i + 1, j) = contentOf rest (i, j) := by
      simp [contentOf, cellOf]
    have hset : setCellNat (row :: rest) (i + 1, j) v =
        row :: setCellNat rest (i, j) v := by
      simp [setCellNat]
    rw [hset, hc, List.flatten_cons, List.flatten_cons]
    exact List.perm_middle.symm.trans ((ih.append_left row).trans List.perm_middle)

/-- Cells not written keep their occupant. -/
theorem cellOf_writePairs_ne : ∀ (ps : List (Cell × String)) (b : PyBoard)
    (c : Cell), c ∉ ps.map Prod.fst →
    cellOf (writePairs b ps) c = cellOf b c
  | [], _, _, _ => rfl
  | p :: ps, b, c, h => by
    have h1 : c ∉ ps.map Prod.fst := fun hm => h (by simp [hm])
    have h2 : c ≠ p.1 := fun he => h (by simp [he])
    rw [writePairs, cellOf_writePairs_ne ps _ c h1, cellOf_setCellNat_ne h2]

/-- A value written at a valid cell written only once is read back. -/
theorem cellOf_writePairs_self : ∀ (ps : List (Cell × String)) (b : PyBoard)
    (c : Cell) (v : String), (c, v) ∈ ps → (ps.map Prod.fst).Nodup →
    c.1 < b.length → c.2 < (b.getD c.1 []).length →
    cellOf (writePairs b ps) c = some v
  | [], _, _, _, h, _, _, _ => by simp at h
  | p :: ps, b, c, v, hmem, hnd, hr, hcc => by
    rw [writePairs]
    rcases List.mem_cons.mp hmem with heq | hmem2
    · obtain rfl : p = (c, v) := heq.symm
      have hnotin : c ∉ ps.map Prod.fst := by
        simpa using (List.nodup_cons.mp hnd).1
      rw [cellOf_writePairs_ne ps _ c hnotin]
      exact cellOf_setCellNat_self hr hcc
    · exact cellOf_writePairs_self ps _ c v hmem2 (List.nodup_cons.mp hnd).2
        (by rw [length_setCellNat]; exact hr)
        (by rw [rowLen_setCellNat]; exact hcc)

/-- Sequential writes at distinct valid cells exchange the old occupants for
the written values, as multisets. -/
theorem perm_writePairs : ∀ (ps : List (Cell × String)) (b : PyBoard),
    (ps.map Prod.fst).Nodup →
    (∀ q ∈ ps, q.1.1 < b.length ∧ q.1.2 < (b.getD q.1.1 []).length) →
    ((ps.map (fun q => contentOf b q.1)) ++ (writePairs b ps).flatten).Perm
      ((ps.map Prod.snd) ++ b.flatten)
  | [], b, _, _ => by simp [writePairs]
  | q :: ps, b, hnd, hval => by
    obtain ⟨hv1, hv2⟩ := hval q (List.mem_cons_self _ _)
    have hnotin : q.1 ∉ ps.map Prod.fst := by
      simpa using (List.nodup_cons.mp hnd).1
    have hb2 := perm_writePairs ps (setCellNat b q.1 q.2)
      (List.nodup_cons.mp hnd).2
      (fun r hr =>
        ⟨by rw [length_setCellNat]; exact (hval r (List.mem_cons_of_mem _ hr)).1,
         by rw [rowLen_setCellNat]; exact (hval r (List.mem_cons_of_mem _ hr)).2⟩)
    have hcont : ps.map (fun r => contentOf (setCellNat b q.1 q.2) r.1) =
        ps.map (fun r => contentOf b r.1) := by
      apply List.map_congr_left
      intro r hr
      unfold contentOf
      rw [cellOf_setCellNat_ne (fun he => hnotin (by
        rw [← he]
        exact List.mem_map_of_mem Prod.fst hr))]
    rw [hcont] at hb2
    have hswap := perm_setCellNat b q.1.1 q.1.2 hv1 hv2 q.2
    rw [writePairs]
    simp only [List.map_cons, List.cons_append]
    exact (hb2.cons (contentOf b q.1)).trans
      (List.perm_middle.symm.trans ((hswap.append_left _).trans List.perm_middle))

/-! ### piece_locations and cell counting -/

/-- Membership in `piece_locations`. -/
theorem mem_piece_locations {b : PyBoard} {p : String} {c : Cell} :
    c ∈ piece_locations b p ↔
      c.1 < b.length ∧ c.2 < boardWidth b ∧ cellOf b c = some p := by
  unfold piece_locations
  simp only [List.mem_flatMap, List.mem_map, List.mem_filter, List.mem_range]
  constructor
  · rintro ⟨x, hx, y, ⟨hy, hcell⟩, rfl⟩
    exact ⟨hx, hy, of_decide_eq_true hcell⟩
  · rintro ⟨h1, h2, h3⟩
    exact ⟨c.1, h1, c.2, ⟨h2, decide_eq_true h3⟩, rfl⟩

/-- `piece_locations` lists distinct cells. -/
theorem nodup_piece_locations (b : PyBoard) (p : String) :
    (piece_locations b p).Nodup := by
  unfold piece_locations
  rw [List.nodup_flatMap]
  constructor
  · intro x _
    exact (List.nodup_range _).filter _ |>.map (fun _ _ => by simp)
  · apply List.Pairwise.imp ?_ (List.nodup_range b.length)
    intro i j hij
    intro c hc hc2
    simp only [Function.onFun, List.mem_map] at hc hc2
    obtain ⟨y, -, rfl⟩ := hc
    obtain ⟨y2, -, h2⟩ := hc2
    exact hij (congrArg Prod.fst h2).symm

/-- Counting a value in a row, by positions. -/
theorem count_eq_filter_range (l : List String) (s : String) :
    l.count s =
      ((List.range l.length).filter (fun j => l[j]? = some s)).length := by
  induction l with
  | nil => rfl
  | cons x xs ih =>
    rw [List.length_cons, List.range_succ_eq_map, List.filter_cons,
      List.filter_map, List.count_cons]
    have hcomp : (fun j => decide ((x :: xs)[j]? = some s)) ∘ Nat.succ =
        fun j => decide (xs[j]? = some s) := by
      funext j
      simp
    rw [hcomp]
    by_cases hx : x = s
    · subst hx
      rw [if_pos (by simp), if_pos (by simp), List.length_cons, List.length_map]
      omega
    · rw [if_neg (by simpa using hx), if_neg (by simp [hx]), List.length_map]
      omega

/-- Counting a value on the whole board, by cells. -/
theorem count_flatten_eq (b : PyBoard) (s : String) :
    b.flatten.count s =
      ((allCells b).filter (fun c => cellOf b c = some s)).length := by
  induction b with
  | nil => rfl
  | cons row rest ih =>
    rw [List.flatten_cons, List.count_append]
    unfold allCells
    rw [List.length_cons, List.range_succ_eq_map, List.flatMap_cons,
      List.filter_append, List.length_append]
    congr 1
    · rw [count_eq_filter_range row s, List.filter_map, List.length_map]
      congr 1
      apply List.filter_congr
      intro j _
      simp [cellOf]
    · rw [ih]
      unfold allCells
      rw [List.flatMap_map]
      have : (fun i => (List.range (((row :: rest).getD (Nat.succ i) []).length)).map
            (fun j => (Nat.succ i, j))) =
          fun i => ((List.range ((rest.getD i []).length)).map (fun j => (i, j))).map
            (fun c => (c.1 + 1, c.2)) := by
        funext i
        rw [List.map_map]
        rfl
      rw [this, ← List.map_flatMap]
      rw [List.filter_map, List.length_map]
      congr 1
      apply List.filter_congr
      intro c _
      simp [cellOf, Function.comp]

/-! ### Decomposition of move_piece into explicit writes -/

/-- What a successful scan guarantees, cell by cell. -/
theorem scanMove_ok_spec {board : PyBoard} {piece : String} {dx dy : Int} :
    ∀ {cs : List Cell} {ds : List String},
    scanMove board piece dx dy cs = Except.ok ds →
    ds = cs.map (fun c =>
      (pyGet2 board ((c.1 : Int) + dx) ((c.2 : Int) + dy)).getD "") ∧
    ∀ c ∈ cs, ∃ v,
      pyGet2 board ((c.1 : Int) + dx) ((c.2 : Int) + dy) = some v ∧
      (v = "_1" ∨ v = "_2" ∨ v = piece)
  | [], ds, h => by
    simp only [scanMove] at h
    cases h
    exact ⟨rfl, by simp⟩
  | c :: cs, ds, h => by
    simp only [scanMove] at h
    cases hg : pyGet2 board ((c.1 : Int) + dx) ((c.2 : Int) + dy) with
    | none => simp only [hg] at h; exact absurd h (by simp)
    | some v =>
      simp only [hg] at h
      by_cases hv : v = "_1" ∨ v = "_2" ∨ v = piece
      · rw [if_pos hv] at h
        cases hs : scanMove board piece dx dy cs with
        | error e => rw [hs] at h; exact absurd h (by simp [Except.map])
        | ok ds2 =>
          rw [hs] at h
          have hds : ds = v :: ds2 := by
            simpa [Except.map] using h.symm
          obtain ⟨ih1, ih2⟩ := scanMove_ok_spec hs
          subst hds
          refine ⟨?_, ?_⟩
          · rw [List.map_cons, ← ih1, hg]
            rfl
          · intro c2 hc2
            rcases List.mem_cons.mp hc2 with rfl | hc2
            · exact ⟨v, hg, hv⟩
            · exact ih2 c2 hc2
      · rw [if_neg hv] at h; exact absurd h (by simp)

/-- A scan succeeds when every displaced cell reads an allowed occupant. -/
theorem scanMove_ok_intro {board : PyBoard} {piece : String} {dx dy : Int} :
    ∀ {cs : List Cell},
    (∀ c ∈ cs, ∃ v,
      pyGet2 board ((c.1 : Int) + dx) ((c.2 : Int) + dy) = some v ∧
      (v = "_1" ∨ v = "_2" ∨ v = piece)) →
    scanMove board piece dx dy cs = Except.ok (cs.map (fun c =>
      (pyGet2 board ((c.1 : Int) + dx) ((c.2 : Int) + dy)).getD ""))
  | [], _ => rfl
  | c :: cs, hall => by
    obtain ⟨v, hg, hv⟩ := hall c (List.mem_cons_self _ _)
    simp only [scanMove, List.map_cons, hg]
    rw [if_pos hv,
      scanMove_ok_intro (fun c2 hc2 => hall c2 (List.mem_cons_of_mem _ hc2))]
    simp [Except.map]

/-- The hole-assignment loop succeeds exactly when enough holes are
available, and then performs the zipped writes. -/
theorem holeFill_ok_iff : ∀ (cs : List Cell) (hs : List String)
    (nb b2 : PyBoard),
    holeFill nb cs hs = MoveRes.ok b2 ↔
      cs.length ≤ hs.length ∧ b2 = writePairs nb (cs.zip hs)
  | [], hs, nb, b2 => by
    simp only [holeFill, List.zip_nil_left, writePairs, List.length_nil]
    constructor
    · intro h
      cases h
      exact ⟨Nat.zero_le _, rfl⟩
    · rintro ⟨-, rfl⟩
      rfl
  | c :: cs, [], nb, b2 => by
    simp [holeFill]
  | c :: cs, h :: hs, nb, b2 => by
    rw [holeFill, holeFill_ok_iff cs hs _ b2]
    simp only [List.zip_cons_cons, List.length_cons, writePairs]
    constructor
    · rintro ⟨h1, h2⟩
      exact ⟨by omega, h2⟩
    · rintro ⟨h1, h2⟩
      exact ⟨by omega, h2⟩

/-- Writing a concatenation writes the batches in order. -/
theorem writePairs_append : ∀ (ps1 ps2 : List (Cell × String)) (b : PyBoard),
    writePairs b (ps1 ++ ps2) = writePairs (writePairs b ps1) ps2
  | [], _, _ => rfl
  | p :: ps1, ps2, b => by
    rw [List.cons_append, writePairs, writePairs, writePairs_append]

/-- On a board of the same shape, the Python write of a readable position
lands at its wrapped target cell. -/
theorem pySet2_wrapTarget {board nb : PyBoard} {dx dy : Int} {c : Cell}
    {v v2 : String} (hlen : nb.length = board.length)
    (hrow : ∀ r, (nb.getD r []).length = (board.getD r []).length)
    (hread : pyGet2 board ((c.1 : Int) + dx) ((c.2 : Int) + dy) = some v2) :
    pySet2 nb ((c.1 : Int) + dx) ((c.2 : Int) + dy) v =
      setCellNat nb (wrapTarget board dx dy c) v := by
  rw [pyGet2_eq_some] at hread
  obtain ⟨r, k, hr, hk, -⟩ := hread
  unfold pySet2 wrapTarget
  rw [hlen, hr]
  simp only [Option.getD_some]
  unfold pySet
  rw [hrow r, hk]
  rfl

/-- Auxiliary induction for `writePhase_eq`. -/
theorem writePhase_eq_writePairs {board : PyBoard} {piece : String}
    {dx dy : Int} :
    ∀ (old : List Cell) (nb : PyBoard),
    nb.length = board.length →
    (∀ r, (nb.getD r []).length = (board.getD r []).length) →
    (∀ c ∈ old, ∃ v,
      pyGet2 board ((c.1 : Int) + dx) ((c.2 : Int) + dy) = some v) →
    old.foldl (fun acc c =>
        pySet2 acc ((c.1 : Int) + dx) ((c.2 : Int) + dy) piece) nb =
      writePairs nb (old.map (fun c => (wrapTarget board dx dy c, piece)))
  | [], nb, _, _, _ => rfl
  | c :: old, nb, hlen, hrow, hread => by
    obtain ⟨v, hv⟩ := hread c (List.mem_cons_self _ _)
    rw [List.foldl_cons, List.map_cons, writePairs,
      pySet2_wrapTarget hlen hrow hv]
    exact writePhase_eq_writePairs old _
      (by rw [length_setCellNat, hlen])
      (fun r => by rw [rowLen_setCellNat, hrow r])
      (fun c2 hc2 => hread c2 (List.mem_cons_of_mem _ hc2))

/-- A successful `move_piece` is exactly the batched wrapped-target writes of
the piece followed by the zipped hole writes, with the scan succeeding and
enough holes available. -/
theorem move_piece_ok_iff {board : PyBoard} {piece : String} {dx dy : Int}
    {b2 : PyBoard} :
    move_piece board (piece, dx, dy) = MoveRes.ok b2 ↔
      piece_locations board piece ≠ [] ∧
      ∃ displaced,
        scanMove board piece dx dy (piece_locations board piece) =
          Except.ok displaced ∧
        (vacatedOf dx dy (piece_locations board piece)).length ≤
          (holesOf displaced piece).length ∧
        b2 = writePairs board
          (((piece_locations board piece).map
              (fun c => (wrapTarget board dx dy c, piece))) ++
            ((vacatedOf dx dy (piece_locations board piece)).zip
              (holesOf displaced piece))) := by
  unfold move_piece
  by_cases hemp : (piece_locations board piece).isEmpty
  · rw [if_pos hemp]
    simp only [List.isEmpty_iff] at hemp
    simp [hemp]
  · rw [if_neg hemp]
    simp only [List.isEmpty_iff] at hemp
    cases hs : scanMove board piece dx dy (piece_locations board piece) with
    | error e =>
      cases e <;>
        simp [hs, hemp]
    | ok displaced =>
      have hreads := (scanMove_ok_spec hs).2
      have hwp : writePhase board piece dx dy (piece_locations board piece) =
          writePairs board ((piece_locations board piece).map
            (fun c => (wrapTarget board dx dy c, piece))) :=
        writePhase_eq_writePairs (piece_locations board piece) board rfl
          (fun _ => rfl) (fun c hc => (hreads c hc).imp (fun v hv => hv.1))
      rw [hwp, holeFill_ok_iff]
      constructor
      · rintro ⟨h1, h2⟩
        refine ⟨hemp, displaced, rfl, h1, ?_⟩
        rw [writePairs_append]
        exact h2
      · rintro ⟨-, d2, hd2, h1, h2⟩
        cases hd2
        refine ⟨h1, ?_⟩
        rw [writePairs_append] at h2
        exact h2

/-! ### Facts about the pieces of a successful move -/

/-- Membership in the vacated-cell list. -/
theorem mem_vacatedOf {dx dy : Int} {old : List Cell} {c : Cell} :
    c ∈ vacatedOf dx dy old ↔
      c ∈ old ∧ ((c.1 : Int), (c.2 : Int)) ∉ newLocOf dx dy old := by
  unfold vacatedOf sortCells
  rw [(List.perm_insertionSort cellLe _).mem_iff, List.mem_filter]
  simp

/-- The vacated cells are distinct when the piece cells are. -/
theorem nodup_vacatedOf {dx dy : Int} {old : List Cell} (h : old.Nodup) :
    (vacatedOf dx dy old).Nodup := by
  unfold vacatedOf sortCells
  exact (List.perm_insertionSort cellLe _).nodup_iff.mpr (h.filter _)

/-- Membership in the hole list of a move. -/
theorem mem_holesOf {displaced : List String} {piece s : String} :
    s ∈ holesOf displaced piece ↔ s ∈ displaced ∧ s ≠ piece := by
  unfold holesOf sortStr
  rw [(List.perm_insertionSort strLeR _).mem_iff, List.mem_filter]
  simp [List.mem_dedup]

/-- The hole list of a move is duplicate-free. -/
theorem nodup_holesOf (displaced : List String) (piece : String) :
    (holesOf displaced piece).Nodup := by
  unfold holesOf sortStr
  exact (List.perm_insertionSort strLeR _).nodup_iff.mpr
    ((List.nodup_dedup displaced).filter _)

/-- Membership in the cell enumeration of a board. -/
theorem mem_allCells {b : PyBoard} {c : Cell} :
    c ∈ allCells b ↔ c.1 < b.length ∧ c.2 < (b.getD c.1 []).length := by
  unfold allCells
  simp only [List.mem_flatMap, List.mem_map, List.mem_range]
  constructor
  · rintro ⟨i, hi, j, hj, rfl⟩
    exact ⟨hi, hj⟩
  · rintro ⟨h1, h2⟩
    exact ⟨c.1, h1, c.2, h2, rfl⟩

/-- The cell enumeration lists distinct cells. -/
theorem nodup_allCells (b : PyBoard) : (allCells b).Nodup := by
  unfold allCells
  rw [List.nodup_flatMap]
  constructor
  · intro i _
    exact (List.nodup_range _).map (fun _ _ => by simp)
  · apply List.Pairwise.imp ?_ (List.nodup_range b.length)
    intro i j hij c hc hc2
    simp only [List.mem_map] at hc hc2
    obtain ⟨y, -, rfl⟩ := hc
    obtain ⟨y2, -, h2⟩ := hc2
    exact hij (congrArg Prod.fst h2).symm

/-- On a rectangular board every row has the assumed width. -/
theorem rowlen_eq_width {b : PyBoard} (hrect : rectRows b) {i : Nat}
    (hi : i < b.length) : (b.getD i []).length = boardWidth b := by
  apply hrect
  rw [List.getD_eq_getElem?_getD, List.getElem?_eq_getElem hi]
  exact List.getElem_mem hi

/-- The wrapped target of a readable position is a valid cell holding the
read value, and its coordinates are the Python indices of the raw position. -/
theorem wrapTarget_spec {board : PyBoard} {dx dy : Int} {c : Cell} {v : String}
    (h : pyGet2 board ((c.1 : Int) + dx) ((c.2 : Int) + dy) = some v) :
    (wrapTarget board dx dy c).1 < board.length ∧
    (wrapTarget board dx dy c).2 <
      (board.getD (wrapTarget board dx dy c).1 []).length ∧
    cellOf board (wrapTarget board dx dy c) = some v ∧
    pyIdx board.length ((c.1 : Int) + dx) =
      some (wrapTarget board dx dy c).1 ∧
    pyIdx ((board.getD (wrapTarget board dx dy c).1 []).length)
      ((c.2 : Int) + dy) = some (wrapTarget board dx dy c).2 := by
  rw [pyGet2_eq_some] at h
  obtain ⟨r, k, hr, hk, hv⟩ := h
  have hw : wrapTarget board dx dy c = (r, k) := by
    unfold wrapTarget
    rw [hr]
    simp only [Option.getD_some]
    rw [hk]
    rfl
  rw [hw]
  exact ⟨(pyIdx_some hr).1, (pyIdx_some hk).1, hv, hr, hk⟩

/-- On a rectangular board, wrapped targets of distinct valid cells are
distinct. -/
theorem wrapTarget_inj {board : PyBoard} {dx dy : Int} {c c2 : Cell}
    {v v2 : String} (hrect : rectRows board)
    (h1 : c.1 < board.length) (h2 : c2.1 < board.length)
    (hc1 : c.2 < boardWidth board) (hc2 : c2.2 < boardWidth board)
    (hg : pyGet2 board ((c.1 : Int) + dx) ((c.2 : Int) + dy) = some v)
    (hg2 : pyGet2 board ((c2.1 : Int) + dx) ((c2.2 : Int) + dy) = some v2)
    (heq : wrapTarget board dx dy c = wrapTarget board dx dy c2) : c = c2 := by
  obtain ⟨hw1, -, -, hr, hk⟩ := wrapTarget_spec hg
  obtain ⟨-, -, -, hr2, hk2⟩ := wrapTarget_spec hg2
  rw [rowlen_eq_width hrect hw1] at hk
  rw [rowlen_eq_width hrect (heq ▸ hw1)] at hk2
  have hrow : c.1 = c2.1 := by
    apply pyIdx_shift_inj h1 h2 hr
    rw [heq]
    exact hr2
  have hcol : c.2 = c2.2 := by
    apply pyIdx_shift_inj hc1 hc2 hk
    rw [heq]
    exact hk2
  exact Prod.ext hrow hcol

/-- Shape of the result of a successful move. -/
theorem move_piece_ok_shape {board : PyBoard} {m : Move} {b2 : PyBoard}
    (hok : move_piece board m = MoveRes.ok b2) :
    b2.length = board.length ∧
    ∀ i, (b2.getD i []).length = (board.getD i []).length := by
  obtain ⟨p, dx, dy⟩ := m
  obtain ⟨-, displaced, -, -, hb2⟩ := move_piece_ok_iff.mp hok
  subst hb2
  exact ⟨length_writePairs _ _, fun i => rowLen_writePairs _ _ i⟩
